import Mathlib

/-!
Verification of the LRU cache implementations of this repository:
`LRUCache` (lru.h, the plain recency cache) and `LRUCacheSizeOrder`
(lru_size_order.h, the hybrid cache with an auxiliary size-ordered index).

The embedding is sequential: the single cache mutex serializes every
operation, so each C++ member function becomes a pure function from the
cache state (plus the inputs the C++ code reads from the clock or from the
weak pointers) to a new state together with the list of owner objects whose
`cleanup()` contract was invoked.  Machine integers (`int64_t`, `size_t`)
are modelled as `Int` with explicit reduction mod `2^64` exactly where the
C++ code performs a signed/unsigned conversion.
-/

namespace LRU

/-- Value of an `Int` reinterpreted as a C++ `uint64_t` (usual arithmetic
conversion applied to an `int64_t` operand when compared against a
`size_t`). -/
def toUInt64 (n : Int) : Int := n.emod (2 ^ 64)

/-- Value of an `Int` (holding a `size_t` value in `[0, 2^64)`) converted to
a C++ `int64_t` (two's-complement wraparound). -/
def toInt64 (n : Int) : Int :=
  if n.emod (2 ^ 64) < 2 ^ 63 then n.emod (2 ^ 64) else n.emod (2 ^ 64) - 2 ^ 64

/-- One tracked entry, `LRUCacheElement<T,PK>` (lru.h): primary key, last
reported size, last access time, the `markSizeWiseCleanup` flag used by
`LRUCacheSizeOrder` (the spec's `pending_size_eviction`; the flag and its
accessors live in the repository's `lru.h`, whose size-order variant is used
by `lru_size_order.h`), and whether the stored `weak_ptr` still resolves to
a live strong reference at sweep time (`alive`).  The element's position in
the recency list (`mElementInListItr`) is represented by the element's
position in the state's `listOfElements`. -/
structure CacheElement where
  primaryKey : Int
  size : Int
  lastAccess : Int
  mark : Bool
  alive : Bool
deriving DecidableEq, Repr

/-- Sum of the `size` fields of a list of elements (the quantity the
cache-wide `total_size` counter is supposed to track). -/
def sizeSum (l : List CacheElement) : Int := (l.map (fun e => e.size)).sum

/-- `std::map::find` on the primary-key map: the first (unique, in reachable
states) element with the given key. -/
def findElem (pk : Int) : List CacheElement → Option CacheElement
  | [] => none
  | e :: rest => if e.primaryKey = pk then some e else findElem pk rest

/-- Find the element with the given key and return it together with the
list with that element removed (the `find` + `list::erase` pair used by
`updateElement` and `removeElement`). -/
def eraseGet (pk : Int) : List CacheElement → Option (CacheElement × List CacheElement)
  | [] => none
  | e :: rest =>
    if e.primaryKey = pk then some (e, rest)
    else
      match eraseGet pk rest with
      | none => none
      | some (x, r) => some (x, e :: r)

/-- `CompareSizePKPair` (lru_size_order.h lines 130-147): `x` orders before
`y` when `x` has the larger size, ties broken by smaller primary key. -/
def sizePKlt (x y : Int × Int) : Bool :=
  decide (x.1 > y.1) || (decide (x.1 = y.1) && decide (x.2 < y.2))

/-- `std::map<SizePKPair,_,CompareSizePKPair>::insert`: ordered insertion
keeping the comparator order; a no-op when an equivalent key is already
present (`map::insert` does not overwrite). -/
def insertSizePK (p : Int × Int) : List (Int × Int) → List (Int × Int)
  | [] => [p]
  | q :: rest =>
    if sizePKlt p q then p :: q :: rest
    else if sizePKlt q p then q :: insertSizePK p rest
    else q :: rest

/-- `std::map<SizePKPair,_,CompareSizePKPair>::erase(key)`: remove the
(unique) entry equivalent to `p` under the comparator, if present. -/
def eraseSizePK (p : Int × Int) : List (Int × Int) → List (Int × Int)
  | [] => []
  | q :: rest =>
    if sizePKlt p q = false ∧ sizePKlt q p = false then rest
    else q :: eraseSizePK p rest

/-! ## The plain `LRUCache` (lru.h, src/unnamed/part_000) -/

/-- State of `LRUCache<T,PK>`: the recency list `mListOfElements` (oldest
first, newest last; `mMapOfElements` always holds exactly the elements of
this list, keyed by primary key, so it is represented implicitly), the
incrementally maintained `mTotalSize`, and the two limits. -/
structure LRUCache where
  mListOfElements : List CacheElement
  mTotalSize : Int
  mMaxSizeSoft : Int
  mMaxSizeHard : Int
deriving DecidableEq, Repr

/-- The eviction loop of `LRUCache::cleanup` (part_000 lines 218-234):
while elements remain and the total exceeds the soft limit, pop the oldest
element and erase it from the key map; unless it is the protected key,
queue its owner for cleanup when the weak pointer resolves and subtract its
size.  Returns the remaining list, the new total, and the accumulated
cleanup queue. -/
def purgeLoop (soft : Int) (prot : Option Int) :
    List CacheElement → Int → List Int → List CacheElement × Int × List Int
  | [], total, acc => ([], total, acc)
  | el :: rest, total, acc =>
    if total > soft then
      if prot = some el.primaryKey then purgeLoop soft prot rest total acc
      else
        purgeLoop soft prot rest (total - el.size)
          (acc ++ if el.alive then [el.primaryKey] else [])
    else (el :: rest, total, acc)

/-- `LRUCache::cleanup` (part_000 lines 213-241): run the eviction loop
under the lock, then (after releasing the lock) invoke `cleanup()` on every
queued object.  The second component is the list of primary keys whose
owner objects had `cleanup()` invoked, in invocation order. -/
def LRUCache.cleanup (s : LRUCache) (prot : Option Int) : LRUCache × List Int :=
  let r := purgeLoop s.mMaxSizeSoft prot s.mListOfElements s.mTotalSize []
  ({ s with mListOfElements := r.1, mTotalSize := r.2.1 }, r.2.2)

/-- `LRUCache::updateElement` (part_000 lines 161-193): under the lock,
create the element on first sight of the key or unlink-and-refresh it on a
repeat (subtracting the old size), set the new size and access time, append
at the newest end; after releasing the lock, if the total exceeds the hard
limit, synchronously run `cleanup` with this key protected from purge.
`alive` models whether the owner keeps its strong reference alive (the
stored weak pointer is set only at element creation and never refreshed). -/
def LRUCache.updateElement (s : LRUCache) (alive : Bool) (key size now : Int) :
    LRUCache × List Int :=
  let s1 :=
    match eraseGet key s.mListOfElements with
    | none =>
      { s with
          mListOfElements :=
            s.mListOfElements ++
              [{ primaryKey := key, size := size, lastAccess := now,
                 mark := false, alive := alive }],
          mTotalSize := s.mTotalSize + size }
    | some (e, rest) =>
      { s with
          mListOfElements := rest ++ [{ e with size := size, lastAccess := now }],
          mTotalSize := s.mTotalSize - e.size + size }
  if s1.mTotalSize > s1.mMaxSizeHard then s1.cleanup (some key) else (s1, [])

/-- `LRUCache::removeElement` (part_000 lines 196-211): under the lock, if
the key is present, unlink the element from the list and the key map and
subtract its size; no owner cleanup is ever invoked. -/
def LRUCache.removeElement (s : LRUCache) (key : Int) : LRUCache × List Int :=
  match eraseGet key s.mListOfElements with
  | none => (s, [])
  | some (e, rest) =>
    ({ s with mListOfElements := rest, mTotalSize := s.mTotalSize - e.size }, [])

/-! ## `LRUCacheSizeOrder` (lru_size_order.h) -/

/-- State of `LRUCacheSizeOrder<T,PK>`: the recency list `_listOfElements`
(with `_mapOfPKWithElement` again holding exactly its elements, hence
implicit), the size-ordered index `_mapOfElementsOrderSize` as its list of
`(size, primaryKey)` keys in comparator order (its mapped iterator is
recovered by key lookup in the recency list), the running `_nTotalSizeOfCache`,
and the configuration fields stored by the constructor. -/
structure LRUCacheSizeOrder where
  listOfElements : List CacheElement
  mapOfElementsOrderSize : List (Int × Int)
  nTotalSizeOfCache : Int
  nSoftLimitInBytes : Int
  nHardLimitInBytes : Int
  nThresholdInSec : Int
  nCleanScheduleInSec : Int
deriving DecidableEq, Repr

/-- The `LRUCacheSizeOrder` constructor (lru_size_order.h lines 288-315):
stores the four configuration values unchanged (no validation of any kind)
and starts the cleaner thread iff `cleanScheduleMs != 0` and the threshold
thread iff `thresholdInSec != 0` (the thread-start conditions reappear in
the `Op` step semantics below). -/
def LRUCacheSizeOrder.init (maxSizeSoft maxSizeHard thresholdInSec cleanScheduleMs : Int) :
    LRUCacheSizeOrder :=
  { listOfElements := []
    mapOfElementsOrderSize := []
    nTotalSizeOfCache := 0
    nSoftLimitInBytes := maxSizeSoft
    nHardLimitInBytes := maxSizeHard
    nThresholdInSec := thresholdInSec
    nCleanScheduleInSec := cleanScheduleMs }

/-- `LRUCacheSizeOrder::removeSizeWiseMarker` (lines 452-456): clear the
element's mark and erase the `(current size, key)` entry from the
size-ordered index. -/
def removeSizeWiseMarker (e : CacheElement) (m : List (Int × Int)) :
    CacheElement × List (Int × Int) :=
  ({ e with mark := false }, eraseSizePK (e.size, e.primaryKey) m)

/-- The locked section of `LRUCacheSizeOrder::updateElement` (lines
339-374): look up or create the element (a fresh `LRUCacheElement` starts
with size 0 and no mark), on a refresh unlink it from the list and subtract
its old size, clear the size-wise marker and erase the stale size-index
entry (keyed by the size *before* `setSize`), store the new size (a
`size_t` converted to `int64_t`), add it to the total, refresh the access
time, and append at the newest end of the list. -/
def LRUCacheSizeOrder.updateLocked (s : LRUCacheSizeOrder)
    (alive : Bool) (key size now : Int) : LRUCacheSizeOrder :=
  match eraseGet key s.listOfElements with
  | none =>
    let e0 : CacheElement :=
      { primaryKey := key, size := 0, lastAccess := 0, mark := false, alive := alive }
    let em := removeSizeWiseMarker e0 s.mapOfElementsOrderSize
    { s with
        listOfElements :=
          s.listOfElements ++ [{ em.1 with size := toInt64 size, lastAccess := now }],
        mapOfElementsOrderSize := em.2,
        nTotalSizeOfCache := s.nTotalSizeOfCache + toInt64 size }
  | some (e, rest) =>
    let em := removeSizeWiseMarker e s.mapOfElementsOrderSize
    { s with
        listOfElements := rest ++ [{ em.1 with size := toInt64 size, lastAccess := now }],
        mapOfElementsOrderSize := em.2,
        nTotalSizeOfCache := s.nTotalSizeOfCache - e.size + toInt64 size }

/-- Phase 1 of `LRUCacheSizeOrder::cleanup` (lines 393-409): walk the
size-ordered index in its stored (comparator) order; for each entry,
dereference the stored recency-list iterator (here: look the key up in the
recency list; a `none` lookup corresponds to a dangling iterator, which the
C++ would dereference as undefined behavior and which no reachable state
produces), queue the owner for cleanup iff its weak pointer resolves, and
subtract the element's size from the total regardless.  The recency list
itself is not touched.  Returns the new total and the cleanup queue. -/
def drainSizeMap (l : List CacheElement) :
    List (Int × Int) → Int → List Int → Int × List Int
  | [], total, acc => (total, acc)
  | p :: rest, total, acc =>
    match findElem p.2 l with
    | some e =>
      drainSizeMap l rest (total - e.size) (acc ++ if e.alive then [p.2] else [])
    | none => drainSizeMap l rest total acc

/-- Phase 2 of `LRUCacheSizeOrder::cleanup` (lines 411-444): while elements
remain and the total exceeds the soft limit, pop the oldest element and
erase it from the key map (both unconditionally); if it is marked for
size-wise cleanup it was already accounted for in phase 1, so neither queue
nor subtract; otherwise, unless it is the protected key, queue its owner
iff the weak pointer resolves and subtract its size. -/
def purgeLoopSO (soft : Int) (prot : Option Int) :
    List CacheElement → Int → List Int → List CacheElement × Int × List Int
  | [], total, acc => ([], total, acc)
  | el :: rest, total, acc =>
    if total > soft then
      if el.mark then purgeLoopSO soft prot rest total acc
      else if prot = some el.primaryKey then purgeLoopSO soft prot rest total acc
      else
        purgeLoopSO soft prot rest (total - el.size)
          (acc ++ if el.alive then [el.primaryKey] else [])
    else (el :: rest, total, acc)

/-- `LRUCacheSizeOrder::cleanup` (lines 385-450): under the lock, first
drain the size-ordered index entirely (phase 1) and clear it, then run the
soft-limit recency walk (phase 2); finally invoke `cleanup()` on every
queued object, in queue order.  Note that in this class the `lock_guard`
scope spans the whole function body, so the invocation loop still holds the
cache mutex (see `cleanupEventsSizeOrder`). -/
def LRUCacheSizeOrder.cleanup (s : LRUCacheSizeOrder) (prot : Option Int) :
    LRUCacheSizeOrder × List Int :=
  let d := drainSizeMap s.listOfElements s.mapOfElementsOrderSize s.nTotalSizeOfCache []
  let r := purgeLoopSO s.nSoftLimitInBytes prot s.listOfElements d.1 d.2
  ({ s with listOfElements := r.1, mapOfElementsOrderSize := [], nTotalSizeOfCache := r.2.1 },
   r.2.2)

/-- `LRUCacheSizeOrder::updateElement` (lines 324-383): the whole body is
guarded by `size <= _nHardLimitInBytes`, a `size_t` vs `int64_t` comparison
performed at `uint64_t`; when it fails, nothing at all happens.  Otherwise
run the locked section and, if the total now exceeds the hard limit,
synchronously run `cleanup` with this key protected from purge. -/
def LRUCacheSizeOrder.updateElement (s : LRUCacheSizeOrder)
    (alive : Bool) (key size now : Int) : LRUCacheSizeOrder × List Int :=
  if toUInt64 size ≤ toUInt64 s.nHardLimitInBytes then
    let s1 := s.updateLocked alive key size now
    if s1.nTotalSizeOfCache > s1.nHardLimitInBytes then s1.cleanup (some key)
    else (s1, [])
  else (s, [])

/-- The marking loop of `LRUCacheSizeOrder::checkAccessTime` (lines
239-261): walk the recency list oldest-first; elements already marked are
passed over; an unmarked element with `now - lastAccess + 1 >= threshold`
is marked and its `(size, key)` pair inserted into the size-ordered index;
the first unmarked element still within the threshold stops the scan. -/
def markLoop (now threshold : Int) :
    List CacheElement → List (Int × Int) → List CacheElement × List (Int × Int)
  | [], m => ([], m)
  | e :: rest, m =>
    if e.mark then
      let r := markLoop now threshold rest m
      (e :: r.1, r.2)
    else if now - e.lastAccess + 1 ≥ threshold then
      let r := markLoop now threshold rest (insertSizePK (e.size, e.primaryKey) m)
      ({ e with mark := true } :: r.1, r.2)
    else (e :: rest, m)

/-- `LRUCacheSizeOrder::checkAccessTime` (lines 230-263): the threshold
reclassification sweep, with `now` the value read from `std::time`. -/
def LRUCacheSizeOrder.checkAccessTime (s : LRUCacheSizeOrder) (now : Int) :
    LRUCacheSizeOrder :=
  let r := markLoop now s.nThresholdInSec s.listOfElements s.mapOfElementsOrderSize
  { s with listOfElements := r.1, mapOfElementsOrderSize := r.2 }

/-! ## Operation sequences on `LRUCacheSizeOrder`

The externally reachable operations: `updateElement` calls from client
threads, `cleanup` calls (from clients or from the cleaner thread), and
`checkAccessTime` ticks, which happen only through the threshold thread —
and the constructor (lines 305-314) starts that thread only when
`thresholdInSec != 0` (`checkAccessTime` itself is `protected`). -/

/-- One externally observable operation on a `LRUCacheSizeOrder`. -/
inductive Op where
  | update (alive : Bool) (key size now : Int)
  | cleanupCall (prot : Option Int)
  | thresholdTick (now : Int)
deriving DecidableEq, Repr

/-- Effect of one operation on the cache state; the threshold tick fires
only when the threshold thread was started, i.e. `nThresholdInSec ≠ 0`. -/
def stepOp (s : LRUCacheSizeOrder) : Op → LRUCacheSizeOrder
  | .update alive key size now => (s.updateElement alive key size now).1
  | .cleanupCall prot => (s.cleanup prot).1
  | .thresholdTick now =>
    if s.nThresholdInSec ≠ 0 then s.checkAccessTime now else s

/-- State after a sequence of operations. -/
def runOps (s : LRUCacheSizeOrder) (ops : List Op) : LRUCacheSizeOrder :=
  ops.foldl stepOp s

/-! ## Lock/invocation event traces

The only part of the two `cleanup` functions that the concurrency claims
care about is the position of the owner-`cleanup()` invocations relative to
the release of the cache mutex; both are fully determined by the brace
structure of the source, so each function gets a trace of events. -/

/-- Mutex acquisition/release of the cache lock and invocation of the
cleanup contract of the owner object registered under a key. -/
inductive LockEvent where
  | acquire
  | release
  | invokeOwner (pk : Int)
deriving DecidableEq, Repr

/-- Event trace of `LRUCache::cleanup` (part_000 lines 213-241): the
`lock_guard` lives in an inner block that closes before the invocation
loop, so the mutex is released before any owner cleanup runs. -/
def cleanupEventsPlain (s : LRUCache) (prot : Option Int) : List LockEvent :=
  [LockEvent.acquire, LockEvent.release] ++
    ((s.cleanup prot).2.map LockEvent.invokeOwner)

/-- Event trace of `LRUCacheSizeOrder::cleanup` (lines 385-450): the
`lock_guard D` is declared at function scope (line 388) and is destroyed
only at the closing brace of the function (line 450), after the invocation
loop (lines 446-449), so every owner cleanup runs while the cache mutex is
held. -/
def cleanupEventsSizeOrder (s : LRUCacheSizeOrder) (prot : Option Int) : List LockEvent :=
  [LockEvent.acquire] ++ ((s.cleanup prot).2.map LockEvent.invokeOwner) ++
    [LockEvent.release]

/-! ## Basic lemmas about the auxiliary structures -/

theorem toUInt64_eq_self {n : Int} (h0 : 0 ≤ n) (h1 : n < 2 ^ 64) : toUInt64 n = n :=
  Int.emod_eq_of_lt h0 h1

theorem toInt64_eq_self {n : Int} (h0 : 0 ≤ n) (h1 : n < 2 ^ 63) : toInt64 n = n := by
  have hm : n.emod (2 ^ 64) = n := Int.emod_eq_of_lt h0 (h1.trans (by norm_num))
  unfold toInt64
  rw [hm, if_pos h1]

theorem sizeSum_nil : sizeSum [] = 0 := rfl

theorem sizeSum_cons (e : CacheElement) (l : List CacheElement) :
    sizeSum (e :: l) = e.size + sizeSum l := by
  simp [sizeSum]

theorem sizeSum_append (a b : List CacheElement) :
    sizeSum (a ++ b) = sizeSum a + sizeSum b := by
  simp [sizeSum]

theorem sizeSum_nonneg {l : List CacheElement} (h : ∀ e ∈ l, 0 ≤ e.size) :
    0 ≤ sizeSum l := by
  induction l with
  | nil => simp [sizeSum]
  | cons e rest ih =>
    rw [sizeSum_cons]
    have h1 := h e (by simp)
    have h2 := ih (fun x hx => h x (by simp [hx]))
    omega

theorem sizePKlt_irrefl (p : Int × Int) : sizePKlt p p = false := by
  simp [sizePKlt]

theorem sizePKlt_eq_of_both_false {p q : Int × Int}
    (h1 : sizePKlt p q = false) (h2 : sizePKlt q p = false) : p = q := by
  rcases p with ⟨a, b⟩
  rcases q with ⟨c, d⟩
  simp [sizePKlt] at h1 h2
  have hac : a = c := by omega
  subst hac
  simp at h1 h2
  have : b = d := by omega
  simp [this]

theorem mem_insertSizePK (p q : Int × Int) (l : List (Int × Int)) :
    p ∈ insertSizePK q l ↔ p = q ∨ p ∈ l := by
  induction l with
  | nil => simp [insertSizePK]
  | cons r rest ih =>
    unfold insertSizePK
    by_cases h1 : sizePKlt q r
    · simp [h1]
    · rw [if_neg (by simp [h1])]
      by_cases h2 : sizePKlt r q
      · simp [h2, ih]
        tauto
      · rw [if_neg (by simp [h2])]
        have hqr : r = q :=
          sizePKlt_eq_of_both_false (Bool.eq_false_iff.mpr h2) (Bool.eq_false_iff.mpr h1)
        subst hqr
        simp

theorem mem_eraseSizePK {l : List (Int × Int)} (hl : l.Nodup) (p q : Int × Int) :
    p ∈ eraseSizePK q l ↔ p ∈ l ∧ p ≠ q := by
  induction l with
  | nil => simp [eraseSizePK]
  | cons r rest ih =>
    rw [List.nodup_cons] at hl
    unfold eraseSizePK
    by_cases h : sizePKlt q r = false ∧ sizePKlt r q = false
    · have hqr : q = r := sizePKlt_eq_of_both_false h.1 h.2
      subst hqr
      rw [if_pos h]
      constructor
      · intro hp
        exact ⟨by simp [hp], fun hpq => hl.1 (hpq ▸ hp)⟩
      · intro ⟨hp, hne⟩
        simp at hp
        tauto
    · rw [if_neg h]
      have hqr : q ≠ r := by
        intro he
        subst he
        exact h ⟨sizePKlt_irrefl q, sizePKlt_irrefl q⟩
      simp [ih hl.2]
      constructor
      · rintro (he | ⟨hp, hne⟩)
        · exact ⟨Or.inl he, by rw [he]; exact fun hc => hqr hc.symm⟩
        · exact ⟨Or.inr hp, hne⟩
      · rintro ⟨he | hp, hne⟩
        · exact Or.inl he
        · exact Or.inr ⟨hp, hne⟩

theorem eraseSizePK_nil (p : Int × Int) : eraseSizePK p [] = [] := rfl

theorem eraseGet_eq_none {pk : Int} {l : List CacheElement} :
    eraseGet pk l = none ↔ ∀ e ∈ l, e.primaryKey ≠ pk := by
  induction l with
  | nil => simp [eraseGet]
  | cons f fs ih =>
    unfold eraseGet
    by_cases h : f.primaryKey = pk
    · simp [h]
    · rw [if_neg h]
      match hm : eraseGet pk fs with
      | none =>
        constructor
        · intro _ e he
          rcases List.mem_cons.mp he with he1 | he2
          · rw [he1]; exact h
          · exact ih.mp hm e he2
        · intro _; rfl
      | some (x, r) =>
        constructor
        · intro hc
          cases hc
        · intro hall
          have : eraseGet pk fs = none := ih.mpr (fun e he => hall e (by simp [he]))
          rw [hm] at this
          cases this

theorem eraseGet_some_spec {pk : Int} {l : List CacheElement}
    {e : CacheElement} {rest : List CacheElement}
    (h : eraseGet pk l = some (e, rest)) :
    e.primaryKey = pk ∧
      ∃ a b, l = a ++ e :: b ∧ rest = a ++ b ∧ ∀ x ∈ a, x.primaryKey ≠ pk := by
  induction l generalizing rest with
  | nil => cases h
  | cons f fs ih =>
    unfold eraseGet at h
    by_cases hf : f.primaryKey = pk
    · rw [if_pos hf] at h
      injection h with h
      injection h with h1 h2
      subst h1; subst h2
      exact ⟨hf, [], fs, by simp, by simp, by simp⟩
    · rw [if_neg hf] at h
      match hm : eraseGet pk fs with
      | none => rw [hm] at h; cases h
      | some (x, r) =>
        rw [hm] at h
        injection h with h
        injection h with h1 h2
        subst h1
        obtain ⟨hx, a, b, hfs, hr, ha⟩ := ih hm
        refine ⟨hx, f :: a, b, by simp [hfs], by simp [← h2, hr], ?_⟩
        intro y hy
        rcases List.mem_cons.mp hy with hyf | hya
        · rw [hyf]; exact hf
        · exact ha y hya

theorem findElem_of_eraseGet {pk : Int} {l : List CacheElement}
    {e : CacheElement} {rest : List CacheElement}
    (h : eraseGet pk l = some (e, rest)) : findElem pk l = some e := by
  induction l generalizing rest with
  | nil => cases h
  | cons f fs ih =>
    unfold eraseGet at h
    unfold findElem
    by_cases hf : f.primaryKey = pk
    · rw [if_pos hf] at h
      injection h with h
      injection h with h1 _
      rw [if_pos hf, h1]
    · rw [if_neg hf] at h
      rw [if_neg hf]
      match hm : eraseGet pk fs with
      | none => rw [hm] at h; cases h
      | some (x, r) =>
        rw [hm] at h
        injection h with h
        injection h with h1 h2
        subst h1
        exact ih hm

theorem findElem_eq_none {pk : Int} {l : List CacheElement} :
    findElem pk l = none ↔ ∀ e ∈ l, e.primaryKey ≠ pk := by
  induction l with
  | nil => simp [findElem]
  | cons f fs ih =>
    unfold findElem
    by_cases h : f.primaryKey = pk
    · simp [h]
    · simp [h, ih]

theorem findElem_of_mem {pk : Int} {l : List CacheElement} {e : CacheElement}
    (hmem : e ∈ l) (hkey : e.primaryKey = pk)
    (hnodup : (l.map (fun x => x.primaryKey)).Nodup) :
    findElem pk l = some e := by
  induction l with
  | nil => cases hmem
  | cons f fs ih =>
    rw [List.map_cons, List.nodup_cons] at hnodup
    unfold findElem
    rcases List.mem_cons.mp hmem with he | he
    · subst he
      rw [if_pos hkey]
    · by_cases hf : f.primaryKey = pk
      · exfalso
        apply hnodup.1
        rw [hf, ← hkey]
        exact List.mem_map.mpr ⟨e, he, rfl⟩
      · rw [if_neg hf]
        exact ih he hnodup.2

theorem purgeLoop_cons (soft : Int) (prot : Option Int) (el : CacheElement)
    (rest : List CacheElement) (total : Int) (acc : List Int) :
    purgeLoop soft prot (el :: rest) total acc =
      if total > soft then
        if prot = some el.primaryKey then purgeLoop soft prot rest total acc
        else
          purgeLoop soft prot rest (total - el.size)
            (acc ++ if el.alive then [el.primaryKey] else [])
      else (el :: rest, total, acc) := rfl

theorem purgeLoopSO_cons (soft : Int) (prot : Option Int) (el : CacheElement)
    (rest : List CacheElement) (total : Int) (acc : List Int) :
    purgeLoopSO soft prot (el :: rest) total acc =
      if total > soft then
        if el.mark then purgeLoopSO soft prot rest total acc
        else if prot = some el.primaryKey then purgeLoopSO soft prot rest total acc
        else
          purgeLoopSO soft prot rest (total - el.size)
            (acc ++ if el.alive then [el.primaryKey] else [])
      else (el :: rest, total, acc) := rfl

/-! ## Concrete cache states used as inputs of the concrete theorems -/

/-- A size-order cache (soft 3, hard 10) already tracking key 1 with size 5. -/
def c3state : LRUCacheSizeOrder :=
  { listOfElements := [{ primaryKey := 1, size := 5, lastAccess := 0, mark := false, alive := true }]
    mapOfElementsOrderSize := []
    nTotalSizeOfCache := 5
    nSoftLimitInBytes := 3
    nHardLimitInBytes := 10
    nThresholdInSec := 0
    nCleanScheduleInSec := 0 }

/-- A size-order cache (soft 0, hard 40) tracking one live element of size 10,
so that an eviction sweep queues exactly one owner cleanup. -/
def c5state : LRUCacheSizeOrder :=
  { listOfElements := [{ primaryKey := 1, size := 10, lastAccess := 0, mark := false, alive := true }]
    mapOfElementsOrderSize := []
    nTotalSizeOfCache := 10
    nSoftLimitInBytes := 0
    nHardLimitInBytes := 40
    nThresholdInSec := 0
    nCleanScheduleInSec := 0 }

/-- A size-order cache with threshold 10 s tracking one unmarked element last
accessed at time 0. -/
def c6state : LRUCacheSizeOrder :=
  { listOfElements := [{ primaryKey := 1, size := 5, lastAccess := 0, mark := false, alive := true }]
    mapOfElementsOrderSize := []
    nTotalSizeOfCache := 5
    nSoftLimitInBytes := 100
    nHardLimitInBytes := 200
    nThresholdInSec := 10
    nCleanScheduleInSec := 0 }

/-! ## Claim theorems -/

/-- C1: the claim states that after every operation `total_size` equals the
sum of the sizes of the tracked elements.  The code violates it: on a cache
with soft limit 20 and hard limit 40, inserting key 1 (size 30) and then
key 2 (size 30) triggers the hard-limit eviction with key 2 protected; the
eviction pops key 2's record out of the recency list and key map but — the
protected-key branch of `cleanup` (lru_size_order.h lines 426-443) skips
the size subtraction — leaves `total_size` at 30 although no element is
tracked any more (the sum of tracked sizes is 0). -/
theorem c1_totalSize_invariant_codeBug :
    (runOps (LRUCacheSizeOrder.init 20 40 0 0)
        [Op.update true 1 30 0, Op.update true 2 30 1]).listOfElements = [] ∧
    (runOps (LRUCacheSizeOrder.init 20 40 0 0)
        [Op.update true 1 30 0, Op.update true 2 30 1]).nTotalSizeOfCache = 30 ∧
    sizeSum (runOps (LRUCacheSizeOrder.init 20 40 0 0)
        [Op.update true 1 30 0, Op.update true 2 30 1]).listOfElements = 0 := by
  decide

/-- C5: the claim states that every evict call invokes the owners' `cleanup`
only after the cache lock has been released.  In `LRUCacheSizeOrder::cleanup`
(lru_size_order.h lines 385-450) the `lock_guard D` is declared at function
scope, so the invocation loop at the end of the function still holds the
cache mutex: on a cache holding one live element above the soft limit, the
owner invocation event occurs strictly between acquire and release. -/
theorem c5_cleanup_invoked_under_lock :
    cleanupEventsSizeOrder c5state none =
      [LockEvent.acquire, LockEvent.invokeOwner 1, LockEvent.release] ∧
    cleanupEventsPlain
      { mListOfElements := c5state.listOfElements, mTotalSize := 10,
        mMaxSizeSoft := 0, mMaxSizeHard := 40 } none =
      [LockEvent.acquire, LockEvent.release, LockEvent.invokeOwner 1] := by
  decide

/-- C6 counterexample: the claim states the sweep marks an element exactly
when `now - last_access >= threshold_age`.  With threshold 10, an element
last accessed at 0 and `now = 9` has `now - last_access = 9 < 10`, yet
`checkAccessTime` (condition `currentTime - accessTime + 1 >= threshold`,
lru_size_order.h line 243) marks it and inserts it into the size-ordered
index. -/
theorem c6_marks_one_second_early :
    (c6state.checkAccessTime 9).mapOfElementsOrderSize = [(5, 1)] ∧
    ((c6state.checkAccessTime 9).listOfElements.map (fun e => e.mark)) = [true] ∧
    (9 : Int) - 0 < 10 := by
  decide

/-- C7 counterexample: the claim states that construction with a hard limit
smaller than the soft limit fails fast with a configuration error.  The
constructor (lru_size_order.h lines 288-315) performs no validation at all:
`init 10 5` (hard 5 < soft 10) yields a working cache instance that stores
the inverted limits unchanged and happily accepts an update. -/
theorem c7_misconfiguration_accepted :
    (LRUCacheSizeOrder.init 10 5 0 0).nSoftLimitInBytes = 10 ∧
    (LRUCacheSizeOrder.init 10 5 0 0).nHardLimitInBytes = 5 ∧
    ((LRUCacheSizeOrder.init 10 5 0 0).updateElement true 1 2 0).1.listOfElements =
      [{ primaryKey := 1, size := 2, lastAccess := 0, mark := false, alive := true }] := by
  decide

/-- C7 amended: construction performs no validation; any limits, including
a hard limit below the soft limit or negative limits, are stored unchanged
and an empty, functioning cache instance is produced. -/
theorem c7_constructor_stores_limits_unvalidated
    (soft hard threshold sched : Int)
    (h : hard < soft ∨ soft < 0 ∨ hard < 0) :
    (LRUCacheSizeOrder.init soft hard threshold sched).nSoftLimitInBytes = soft ∧
    (LRUCacheSizeOrder.init soft hard threshold sched).nHardLimitInBytes = hard ∧
    (LRUCacheSizeOrder.init soft hard threshold sched).nThresholdInSec = threshold ∧
    (LRUCacheSizeOrder.init soft hard threshold sched).listOfElements = [] ∧
    (LRUCacheSizeOrder.init soft hard threshold sched).mapOfElementsOrderSize = [] ∧
    (LRUCacheSizeOrder.init soft hard threshold sched).nTotalSizeOfCache = 0 := by
  exact ⟨rfl, rfl, rfl, rfl, rfl, rfl⟩

/-- Witness for C7: the misconfigured construction `init 10 5` is accepted. -/
theorem c7_constructor_stores_limits_unvalidated_witness :
    ((5 : Int) < 10 ∨ (10 : Int) < 0 ∨ (5 : Int) < 0) ∧
    (LRUCacheSizeOrder.init 10 5 0 0).nHardLimitInBytes = 5 :=
  ⟨by decide, (c7_constructor_stores_limits_unvalidated 10 5 0 0 (by decide)).2.1⟩

/-- C3 counterexample: the claim states that `update` replaces the prior
registration for *every* requested size.  `LRUCacheSizeOrder::updateElement`
(line 337) only acts when `size <= _nHardLimitInBytes`: on a cache with
hard limit 10 already tracking key 1 with size 5, an update of key 1 to
size 20 is a complete no-op — the old registration (size 5, access time 0)
survives untouched and nothing is replaced. -/
theorem c3_oversized_update_not_replaced :
    c3state.updateElement true 1 20 7 = (c3state, []) ∧
    c3state.listOfElements =
      [{ primaryKey := 1, size := 5, lastAccess := 0, mark := false, alive := true }] := by
  decide

/-- C10 amended: *provided the hard limit is non-negative*, an update whose
requested size exceeds it is a complete no-op: the guard
`size <= _nHardLimitInBytes` (lru_size_order.h line 337, an unsigned
comparison) fails, and the guarded block contains the whole effect of
`updateElement`, including the hard-limit eviction trigger — so no element
is created or refreshed, no index nor `total_size` changes, and no eviction
runs.  The non-negativity proviso is forced: on a negative hard limit the
unsigned comparison admits every size (see
`c10_negative_hard_limit_not_noop`). -/
theorem c10_oversized_update_noop (s : LRUCacheSizeOrder) (alive : Bool)
    (key size now : Int)
    (h0 : 0 ≤ s.nHardLimitInBytes) (h1 : s.nHardLimitInBytes < size)
    (h2 : size < 2 ^ 64) :
    s.updateElement alive key size now = (s, []) := by
  unfold LRUCacheSizeOrder.updateElement
  rw [if_neg]
  rw [toUInt64_eq_self (le_of_lt (lt_of_le_of_lt h0 h1)) h2,
    toUInt64_eq_self h0 (lt_trans h1 h2)]
  omega

/-- C10 counterexample: the claim as stated fails on a cache with a
negative hard limit, which the unvalidated constructor accepts (see C7).
With hard limit -1, a requested size of 5 exceeds the hard limit, yet the
line-337 guard — `size_t` against `int64_t`, compared at `uint64_t`, where
-1 reinterprets as `0xFFFFFFFFFFFFFFFF` — admits it, and the call is
anything but a no-op: the element is registered, `total_size` becomes 5,
and the hard-limit eviction even runs. -/
theorem c10_negative_hard_limit_not_noop :
    (LRUCacheSizeOrder.init 0 (-1) 0 0).nHardLimitInBytes < 5 ∧
    toUInt64 5 ≤ toUInt64 (LRUCacheSizeOrder.init 0 (-1) 0 0).nHardLimitInBytes ∧
    ((LRUCacheSizeOrder.init 0 (-1) 0 0).updateElement true 1 5 0).1.nTotalSizeOfCache = 5 ∧
    (LRUCacheSizeOrder.init 0 (-1) 0 0).updateElement true 1 5 0 ≠
      (LRUCacheSizeOrder.init 0 (-1) 0 0, []) := by
  decide

/-- Witness for C10: a cache with hard limit 10 ignores an update of size 20. -/
theorem c10_oversized_update_noop_witness :
    ((0 : Int) ≤ c3state.nHardLimitInBytes ∧ c3state.nHardLimitInBytes < 20 ∧
      (20 : Int) < 2 ^ 64) ∧
    c3state.updateElement false 2 20 3 = (c3state, []) :=
  ⟨by decide, c10_oversized_update_noop c3state false 2 20 3 (by decide) (by decide) (by decide)⟩

/-- A plain `LRUCache` tracking keys 1 and 2. -/
def c9state : LRUCache :=
  { mListOfElements :=
      [{ primaryKey := 1, size := 5, lastAccess := 0, mark := false, alive := true },
       { primaryKey := 2, size := 7, lastAccess := 1, mark := false, alive := true }]
    mTotalSize := 12
    mMaxSizeSoft := 20
    mMaxSizeHard := 40 }

/-- C9: `LRUCache::removeElement` (part_000 lines 196-211) removes
bookkeeping only — the returned invocation list is always empty; a call on
an absent key changes nothing; and a second `removeElement` on the same key
is a no-op, since the first call removed the only registration of the key
(keys are unique in the cache map). -/
theorem c9_remove_idempotent (s : LRUCache) (key : Int)
    (hnodup : (s.mListOfElements.map (fun e => e.primaryKey)).Nodup) :
    (s.removeElement key).2 = [] ∧
    ((∀ e ∈ s.mListOfElements, e.primaryKey ≠ key) → s.removeElement key = (s, [])) ∧
    (s.removeElement key).1.removeElement key = ((s.removeElement key).1, []) := by
  refine ⟨?_, ?_, ?_⟩
  · unfold LRUCache.removeElement
    cases hm : eraseGet key s.mListOfElements with
    | none => rfl
    | some pr => rfl
  · intro hall
    unfold LRUCache.removeElement
    rw [eraseGet_eq_none.mpr hall]
  · cases hm : eraseGet key s.mListOfElements with
    | none =>
      have h1 : s.removeElement key = (s, []) := by
        unfold LRUCache.removeElement
        rw [hm]
      rw [h1]
      exact h1
    | some pr =>
      obtain ⟨e, rest⟩ := pr
      obtain ⟨hkey, a, b, hl, hrest, ha⟩ := eraseGet_some_spec hm
      have hb : ∀ x ∈ b, x.primaryKey ≠ key := by
        intro x hx hc
        rw [hl, List.map_append, List.map_cons] at hnodup
        have h2 := (List.Nodup.of_append_right hnodup)
        rw [List.nodup_cons] at h2
        exact h2.1 (hkey ▸ (hc ▸ List.mem_map.mpr ⟨x, hx, rfl⟩))
      have hnone : eraseGet key rest = none := by
        rw [eraseGet_eq_none, hrest]
        intro x hx
        rcases List.mem_append.mp hx with h1 | h2
        · exact ha x h1
        · exact hb x h2
      have h1 : s.removeElement key =
          ({ s with mListOfElements := rest, mTotalSize := s.mTotalSize - e.size }, []) := by
        unfold LRUCache.removeElement
        rw [hm]
      rw [h1]
      have h2 : ({ s with
              mListOfElements := rest,
              mTotalSize := s.mTotalSize - e.size } : LRUCache).removeElement key =
          ({ s with mListOfElements := rest, mTotalSize := s.mTotalSize - e.size }, []) := by
        unfold LRUCache.removeElement
        rw [show eraseGet key ({ s with
              mListOfElements := rest,
              mTotalSize := s.mTotalSize - e.size } : LRUCache).mListOfElements =
            none from hnone]
      exact h2

/-- Witness for C9: removing key 1 twice from a two-element cache; the
second call is a no-op. -/
theorem c9_remove_idempotent_witness :
    (c9state.mListOfElements.map (fun e => e.primaryKey)).Nodup ∧
    (c9state.removeElement 1).2 = [] ∧
    (c9state.removeElement 1).1.removeElement 1 = ((c9state.removeElement 1).1, []) :=
  ⟨by decide,
   (c9_remove_idempotent c9state 1 (by decide)).1,
   (c9_remove_idempotent c9state 1 (by decide)).2.2⟩

/-! ## The threshold sweep (C6) -/

/-- The scan-continuation predicate of `checkAccessTime`: the loop keeps
walking past an element iff it is already marked or its age (plus one, as
the code computes it) has reached the threshold. -/
def keepScanning (now threshold : Int) (e : CacheElement) : Bool :=
  e.mark || decide (now - e.lastAccess + 1 ≥ threshold)

theorem setMark_eq_self {e : CacheElement} (h : e.mark = true) :
    { e with mark := true } = e := by
  cases e
  simp_all

theorem head?_dropWhile_not_pos {α : Type} (p : α → Bool) :
    ∀ (l : List α) (e : α), (l.dropWhile p).head? = some e → p e = false := by
  intro l
  induction l with
  | nil => intro e h; cases h
  | cons f fs ih =>
    intro e h
    rw [List.dropWhile_cons] at h
    by_cases hp : p f
    · rw [if_pos hp] at h
      exact ih e h
    · rw [if_neg hp] at h
      injection h with h
      rw [← h]
      exact Bool.eq_false_iff.mpr hp

theorem markLoop_eq_takeWhile (now threshold : Int) :
    ∀ (l : List CacheElement) (m : List (Int × Int)),
    markLoop now threshold l m =
      ((l.takeWhile (keepScanning now threshold)).map (fun e => { e with mark := true }) ++
         l.dropWhile (keepScanning now threshold),
       ((l.takeWhile (keepScanning now threshold)).filter (fun e => !e.mark)).foldl
         (fun m2 e => insertSizePK (e.size, e.primaryKey) m2) m) := by
  intro l
  induction l with
  | nil => intro m; rfl
  | cons e rest ih =>
    intro m
    rw [List.takeWhile_cons, List.dropWhile_cons]
    by_cases hmark : e.mark = true
    · have hk : keepScanning now threshold e = true := by simp [keepScanning, hmark]
      rw [if_pos hk, if_pos hk]
      unfold markLoop
      rw [if_pos hmark, ih m]
      rw [List.filter_cons]
      simp only [hmark, Bool.not_true, List.map_cons, List.cons_append, setMark_eq_self hmark]
      rfl
    · have hmf : e.mark = false := Bool.eq_false_iff.mpr hmark
      by_cases hs : now - e.lastAccess + 1 ≥ threshold
      · have hk : keepScanning now threshold e = true := by
          simp [keepScanning, hs]
        rw [if_pos hk, if_pos hk]
        unfold markLoop
        rw [if_neg hmark, if_pos hs, ih]
        rw [List.filter_cons]
        simp only [hmf, Bool.not_false, List.map_cons, List.cons_append, if_pos]
        rw [List.foldl_cons]
      · have hk : keepScanning now threshold e = false := by
          simp [keepScanning, hmf, hs]
        rw [if_neg (by simp [hk]), if_neg (by simp [hk])]
        unfold markLoop
        rw [if_neg hmark, if_neg hs]
        rfl

/-- C6 amended: the threshold sweep marks (and inserts into the size-ordered
index) exactly the not-yet-marked elements in the longest prefix of the
recency list in which every unmarked element satisfies
`now - last_access + 1 >= threshold_age` — one second earlier than the
claim's `now - last_access >= threshold_age` — and the scan stops at the
first unmarked element still inside that adjusted threshold, leaving every
later element untouched. -/
theorem c6_mark_stale_sweep (s : LRUCacheSizeOrder) (now : Int) :
    s.checkAccessTime now =
      { s with
          listOfElements :=
            (s.listOfElements.takeWhile (keepScanning now s.nThresholdInSec)).map
              (fun e => { e with mark := true }) ++
              s.listOfElements.dropWhile (keepScanning now s.nThresholdInSec),
          mapOfElementsOrderSize :=
            ((s.listOfElements.takeWhile (keepScanning now s.nThresholdInSec)).filter
              (fun e => !e.mark)).foldl
              (fun m e => insertSizePK (e.size, e.primaryKey) m)
              s.mapOfElementsOrderSize } ∧
    (∀ e, (s.listOfElements.dropWhile (keepScanning now s.nThresholdInSec)).head? = some e →
      e.mark = false ∧ now - e.lastAccess + 1 < s.nThresholdInSec) := by
  constructor
  · unfold LRUCacheSizeOrder.checkAccessTime
    rw [markLoop_eq_takeWhile]
  · intro e he
    have hk := head?_dropWhile_not_pos (keepScanning now s.nThresholdInSec)
      s.listOfElements e he
    simp [keepScanning] at hk
    exact ⟨hk.1, by omega⟩

/-- Witness for C6: on a threshold-10 cache whose only element was last
accessed at time 0, the sweep at time 9 already marks it (9 + 1 ≥ 10). -/
theorem c6_mark_stale_sweep_witness :
    (c6state.checkAccessTime 9).listOfElements =
      [{ primaryKey := 1, size := 5, lastAccess := 0, mark := true, alive := true }] := by
  rw [(c6_mark_stale_sweep c6state 9).1]
  decide

/-! ## The two-phase eviction sweep (C2) -/

/-- A size-order cache holding two marked stale elements (keys 1 and 3,
sizes 50 and 60) indexed in the size map, plus a fresh unmarked element
(key 2, size 20). -/
def c2state : LRUCacheSizeOrder :=
  { listOfElements :=
      [{ primaryKey := 1, size := 50, lastAccess := 0, mark := true, alive := true },
       { primaryKey := 3, size := 60, lastAccess := 1, mark := true, alive := false },
       { primaryKey := 2, size := 20, lastAccess := 5, mark := false, alive := true }]
    mapOfElementsOrderSize := [(60, 3), (50, 1)]
    nTotalSizeOfCache := 130
    nSoftLimitInBytes := 100
    nHardLimitInBytes := 200
    nThresholdInSec := 10
    nCleanScheduleInSec := 0 }

/-- Sum of the size components of the size-ordered index entries. -/
def entrySum (entries : List (Int × Int)) : Int := (entries.map (fun p => p.1)).sum

/-- The owner keys queued by phase 1 of the eviction sweep: the keys of
the index entries, in index order, restricted to those whose element's
weak pointer still resolves. -/
def drainQueue (l : List CacheElement) (entries : List (Int × Int)) : List Int :=
  (entries.filter (fun p =>
    match findElem p.2 l with
    | some e => e.alive
    | none => false)).map (fun p => p.2)

/-- The claim's description of the eviction sweep as phase 1 followed by
phase 2: subtract every index entry's size from the total and queue the
resolvable entries' owners in index order (ignoring the soft limit), clear
the index, and only then run the soft-limit recency walk on the reduced
total with the phase-1 queue already collected. -/
def cleanupDrainThenPurge (s : LRUCacheSizeOrder) (prot : Option Int) :
    LRUCacheSizeOrder × List Int :=
  let r := purgeLoopSO s.nSoftLimitInBytes prot s.listOfElements
      (s.nTotalSizeOfCache - entrySum s.mapOfElementsOrderSize)
      (drainQueue s.listOfElements s.mapOfElementsOrderSize)
  ({ s with
        listOfElements := r.1,
        mapOfElementsOrderSize := [],
        nTotalSizeOfCache := r.2.1 },
   r.2.2)

theorem drainSizeMap_spec (l : List CacheElement) :
    ∀ (entries : List (Int × Int)) (total : Int) (acc : List Int),
    (∀ p ∈ entries, ∃ e, findElem p.2 l = some e ∧ e.size = p.1) →
    drainSizeMap l entries total acc =
      (total - entrySum entries, acc ++ drainQueue l entries) := by
  intro entries
  induction entries with
  | nil => intro total acc _; simp [drainSizeMap, entrySum, drainQueue]
  | cons p rest ih =>
    intro total acc hcons
    obtain ⟨e, he, hsize⟩ := hcons p (by simp)
    unfold drainSizeMap
    rw [he]
    show drainSizeMap l rest (total - e.size)
        (acc ++ if e.alive = true then [p.2] else []) = _
    rw [ih (total - e.size) _ (fun q hq => hcons q (by simp [hq]))]
    have hsum : entrySum (p :: rest) = p.1 + entrySum rest := by
      simp [entrySum]
    have hqueue : drainQueue l (p :: rest) =
        (if e.alive then [p.2] else []) ++ drainQueue l rest := by
      unfold drainQueue
      rw [List.filter_cons]
      cases ha : e.alive with
      | true => simp [he, ha]
      | false => simp [he, ha]
    rw [hsum, hqueue]
    cases ha : e.alive with
    | true => simp [ha]; omega
    | false => simp [ha]; omega

/-- C2: the eviction sweep is exactly the composition of the two phases the
claim describes.  Under the size-index consistency invariant (every index
entry resolves to a tracked element carrying the entry's size), an evict
call (i) first drains the *entire* size-ordered index in its stored order —
which, by the sortedness hypothesis, is size-descending with ties by
ascending key — queueing each entry's owner iff its weak handle resolves
while subtracting the entry's size from `total_size` unconditionally and
clearing the index, with the soft limit never consulted; and (ii) only then
runs the oldest-first recency walk, on the already-reduced total, while
`total_size > soft_limit`, where a marked element is popped without any
further size subtraction or queueing. -/
theorem c2_evict_two_phase (s : LRUCacheSizeOrder) (prot : Option Int)
    (hcons : ∀ p ∈ s.mapOfElementsOrderSize,
      ∃ e, findElem p.2 s.listOfElements = some e ∧ e.size = p.1)
    (hsorted : List.Pairwise (fun p q => sizePKlt p q = true) s.mapOfElementsOrderSize) :
    s.cleanup prot = cleanupDrainThenPurge s prot ∧
    (s.cleanup prot).1.mapOfElementsOrderSize = [] ∧
    (∀ el rest total acc, el.mark = true → total > s.nSoftLimitInBytes →
      purgeLoopSO s.nSoftLimitInBytes prot (el :: rest) total acc =
      purgeLoopSO s.nSoftLimitInBytes prot rest total acc) := by
  refine ⟨?_, ?_, ?_⟩
  · unfold LRUCacheSizeOrder.cleanup cleanupDrainThenPurge
    rw [drainSizeMap_spec s.listOfElements s.mapOfElementsOrderSize
      s.nTotalSizeOfCache [] hcons]
    rfl
  · unfold LRUCacheSizeOrder.cleanup
    rfl
  · intro el rest total acc hmark htotal
    rw [purgeLoopSO_cons, if_pos htotal, if_pos hmark]

/-- Witness for C2: a cache whose size index holds the marked entries
(60, 3) and (50, 1), drained ahead of the recency walk. -/
theorem c2_evict_two_phase_witness :
    (c2state.cleanup none).1.mapOfElementsOrderSize = [] :=
  (c2_evict_two_phase c2state none
    (by
      intro p hp
      rcases List.mem_cons.mp hp with h1 | h2
      · subst h1
        exact ⟨{ primaryKey := 3, size := 60, lastAccess := 1, mark := true,
                 alive := false }, by decide, by decide⟩
      · rcases List.mem_cons.mp h2 with h3 | h4
        · subst h3
          exact ⟨{ primaryKey := 1, size := 50, lastAccess := 0, mark := true,
                   alive := true }, by decide, by decide⟩
        · cases h4)
    (by decide)).2.1

/-! ## Plain-LRU mode (C8) -/

/-- Characterization of the locked update section when the key is new. -/
theorem updateLocked_eq_none (s : LRUCacheSizeOrder) (alive : Bool)
    (key size now : Int) (hm : eraseGet key s.listOfElements = none) :
    s.updateLocked alive key size now =
      { s with
          listOfElements := s.listOfElements ++
            [{ primaryKey := key, size := toInt64 size, lastAccess := now,
               mark := false, alive := alive }],
          mapOfElementsOrderSize := eraseSizePK (0, key) s.mapOfElementsOrderSize,
          nTotalSizeOfCache := s.nTotalSizeOfCache + toInt64 size } := by
  unfold LRUCacheSizeOrder.updateLocked removeSizeWiseMarker
  rw [hm]

/-- Characterization of the locked update section on a refresh. -/
theorem updateLocked_eq_some (s : LRUCacheSizeOrder) (alive : Bool)
    (key size now : Int) (e : CacheElement) (rest : List CacheElement)
    (hm : eraseGet key s.listOfElements = some (e, rest)) :
    s.updateLocked alive key size now =
      { s with
          listOfElements := rest ++
            [{ primaryKey := e.primaryKey, size := toInt64 size, lastAccess := now,
               mark := false, alive := e.alive }],
          mapOfElementsOrderSize :=
            eraseSizePK (e.size, e.primaryKey) s.mapOfElementsOrderSize,
          nTotalSizeOfCache := s.nTotalSizeOfCache - e.size + toInt64 size } := by
  unfold LRUCacheSizeOrder.updateLocked removeSizeWiseMarker
  rw [hm]

/-- A cache in plain-LRU mode: nothing is marked, the size-ordered index is
empty, and the threshold is 0 (so the threshold thread was never started). -/
def PlainMode (s : LRUCacheSizeOrder) : Prop :=
  (∀ e ∈ s.listOfElements, e.mark = false) ∧
  s.mapOfElementsOrderSize = [] ∧ s.nThresholdInSec = 0

theorem purgeLoopSO_mem (soft : Int) (prot : Option Int) :
    ∀ (l : List CacheElement) (total : Int) (acc : List Int),
    ∀ e ∈ (purgeLoopSO soft prot l total acc).1, e ∈ l := by
  intro l
  induction l with
  | nil => intro total acc e he; cases he
  | cons el rest ih =>
    intro total acc e he
    rw [purgeLoopSO_cons] at he
    by_cases ht : total > soft
    · rw [if_pos ht] at he
      by_cases hmk : el.mark
      · rw [if_pos hmk] at he
        exact List.mem_cons_of_mem el (ih total acc e he)
      · rw [if_neg hmk] at he
        by_cases hp : prot = some el.primaryKey
        · rw [if_pos hp] at he
          exact List.mem_cons_of_mem el (ih total acc e he)
        · rw [if_neg hp] at he
          exact List.mem_cons_of_mem el (ih _ _ e he)
    · rw [if_neg ht] at he
      exact he

theorem purgeLoopSO_eq_purgeLoop (soft : Int) (prot : Option Int) :
    ∀ (l : List CacheElement) (total : Int) (acc : List Int),
    (∀ e ∈ l, e.mark = false) →
    purgeLoopSO soft prot l total acc = purgeLoop soft prot l total acc := by
  intro l
  induction l with
  | nil => intro total acc _; rfl
  | cons el rest ih =>
    intro total acc hunmarked
    rw [purgeLoopSO_cons, purgeLoop_cons]
    have hel : el.mark = false := hunmarked el (by simp)
    have hrest : ∀ e ∈ rest, e.mark = false :=
      fun e he => hunmarked e (by simp [he])
    by_cases ht : total > soft
    · rw [if_pos ht, if_pos ht, if_neg (by simp [hel])]
      by_cases hp : prot = some el.primaryKey
      · rw [if_pos hp, if_pos hp, ih total acc hrest]
      · rw [if_neg hp, if_neg hp, ih _ _ hrest]
    · rw [if_neg ht, if_neg ht]

/-- The recency-only eviction sweep: exactly the eviction loop of the plain
`LRUCache::cleanup` run on the hybrid cache's recency list, with the size
index never consulted. -/
def cleanupRecencyOnly (s : LRUCacheSizeOrder) (prot : Option Int) :
    LRUCacheSizeOrder × List Int :=
  let r := purgeLoop s.nSoftLimitInBytes prot s.listOfElements s.nTotalSizeOfCache []
  ({ s with
        listOfElements := r.1,
        mapOfElementsOrderSize := [],
        nTotalSizeOfCache := r.2.1 },
   r.2.2)

theorem cleanup_of_plain (s : LRUCacheSizeOrder) (prot : Option Int)
    (hmap : s.mapOfElementsOrderSize = [])
    (hunmarked : ∀ e ∈ s.listOfElements, e.mark = false) :
    s.cleanup prot = cleanupRecencyOnly s prot := by
  unfold LRUCacheSizeOrder.cleanup cleanupRecencyOnly
  rw [hmap]
  simp only [drainSizeMap]
  rw [purgeLoopSO_eq_purgeLoop s.nSoftLimitInBytes prot s.listOfElements
    s.nTotalSizeOfCache [] hunmarked]

theorem cleanup_preserves_plainMode (s : LRUCacheSizeOrder) (prot : Option Int)
    (h : PlainMode s) : PlainMode (s.cleanup prot).1 := by
  obtain ⟨hunmarked, hmap, hthr⟩ := h
  refine ⟨?_, ?_, ?_⟩
  · intro e he
    unfold LRUCacheSizeOrder.cleanup at he
    exact hunmarked e (purgeLoopSO_mem _ _ _ _ _ e he)
  · unfold LRUCacheSizeOrder.cleanup
    rfl
  · unfold LRUCacheSizeOrder.cleanup
    exact hthr

theorem updateLocked_preserves_plainMode (s : LRUCacheSizeOrder) (alive : Bool)
    (key size now : Int) (h : PlainMode s) :
    PlainMode (s.updateLocked alive key size now) := by
  obtain ⟨hunmarked, hmap, hthr⟩ := h
  cases hm : eraseGet key s.listOfElements with
  | none =>
    rw [updateLocked_eq_none s alive key size now hm]
    refine ⟨?_, by rw [hmap]; rfl, hthr⟩
    intro e he
    rcases List.mem_append.mp he with h1 | h2
    · exact hunmarked e h1
    · simp at h2
      rw [h2]
  | some pr =>
    obtain ⟨e0, rest⟩ := pr
    obtain ⟨hkey, a, b, hl, hrest, ha⟩ := eraseGet_some_spec hm
    rw [updateLocked_eq_some s alive key size now e0 rest hm]
    refine ⟨?_, by rw [hmap]; rfl, hthr⟩
    intro e he
    rcases List.mem_append.mp he with h1 | h2
    · apply hunmarked
      rw [hl]
      rw [hrest] at h1
      rcases List.mem_append.mp h1 with h3 | h4
      · exact List.mem_append.mpr (Or.inl h3)
      · exact List.mem_append.mpr (Or.inr (List.mem_cons_of_mem e0 h4))
    · simp at h2
      rw [h2]

theorem stepOp_preserves_plainMode (s : LRUCacheSizeOrder) (op : Op)
    (h : PlainMode s) : PlainMode (stepOp s op) := by
  cases op with
  | update alive key size now =>
    show PlainMode (s.updateElement alive key size now).1
    unfold LRUCacheSizeOrder.updateElement
    by_cases hg : toUInt64 size ≤ toUInt64 s.nHardLimitInBytes
    · rw [if_pos hg]
      have h1 := updateLocked_preserves_plainMode s alive key size now h
      by_cases ht : (s.updateLocked alive key size now).nTotalSizeOfCache >
          (s.updateLocked alive key size now).nHardLimitInBytes
      · rw [if_pos ht]
        exact cleanup_preserves_plainMode _ _ h1
      · rw [if_neg ht]
        exact h1
    · rw [if_neg hg]
      exact h
  | cleanupCall prot =>
    exact cleanup_preserves_plainMode s prot h
  | thresholdTick now =>
    show PlainMode (if s.nThresholdInSec ≠ 0 then s.checkAccessTime now else s)
    rw [if_neg (by simp [h.2.2])]
    exact h

theorem runOps_preserves_plainMode (ops : List Op) :
    ∀ (s : LRUCacheSizeOrder), PlainMode s → PlainMode (runOps s ops) := by
  induction ops with
  | nil => intro s h; exact h
  | cons op rest ih =>
    intro s h
    exact ih (stepOp s op) (stepOp_preserves_plainMode s op h)

/-- C8: a cache constructed with `threshold_age = 0` runs in plain-LRU
mode for its whole lifetime: the threshold thread is never started
(constructor lines 305-314), so after any sequence of operations no element
is marked and the size-ordered index stays empty; consequently phase 1 of
every evict call is a no-op and the sweep degenerates to `cleanupRecencyOnly`
— the identical oldest-first soft-limit loop of the plain `LRUCache`
(`purgeLoop`), i.e. eviction is by recency order alone. -/
theorem c8_threshold_zero_pure_lru (soft hard sched : Int) (ops : List Op)
    (prot : Option Int) :
    (∀ e ∈ (runOps (LRUCacheSizeOrder.init soft hard 0 sched) ops).listOfElements,
      e.mark = false) ∧
    (runOps (LRUCacheSizeOrder.init soft hard 0 sched) ops).mapOfElementsOrderSize = [] ∧
    (runOps (LRUCacheSizeOrder.init soft hard 0 sched) ops).cleanup prot =
      cleanupRecencyOnly (runOps (LRUCacheSizeOrder.init soft hard 0 sched) ops) prot := by
  have h0 : PlainMode (LRUCacheSizeOrder.init soft hard 0 sched) :=
    ⟨fun e he => absurd he (List.not_mem_nil e), rfl, rfl⟩
  have h := runOps_preserves_plainMode ops _ h0
  exact ⟨h.1, h.2.1, cleanup_of_plain _ prot h.2.1 h.1⟩

/-- Witness for C8: a concrete run on a threshold-0 cache (an update that
triggers a hard-limit eviction, a threshold tick, and a sweep) keeps the
size-ordered index empty. -/
theorem c8_threshold_zero_pure_lru_witness :
    (runOps (LRUCacheSizeOrder.init 20 40 0 1)
      [Op.update true 1 30 0, Op.thresholdTick 100, Op.update true 2 30 101,
       Op.cleanupCall none]).mapOfElementsOrderSize = [] :=
  (c8_threshold_zero_pure_lru 20 40 1
    [Op.update true 1 30 0, Op.thresholdTick 100, Op.update true 2 30 101,
     Op.cleanupCall none] none).2.1

/-! ## Update replaces the prior registration (C3) -/

theorem eraseGet_rest_subset {pk : Int} {l : List CacheElement}
    {e : CacheElement} {rest : List CacheElement}
    (hm : eraseGet pk l = some (e, rest)) : ∀ x ∈ rest, x ∈ l := by
  obtain ⟨_, a, b, hl, hrest, _⟩ := eraseGet_some_spec hm
  intro x hx
  rw [hrest] at hx
  rw [hl]
  rcases List.mem_append.mp hx with h1 | h2
  · exact List.mem_append.mpr (Or.inl h1)
  · exact List.mem_append.mpr (Or.inr (List.mem_cons_of_mem e h2))

theorem eraseGet_rest_keys {pk : Int} {l : List CacheElement}
    {e : CacheElement} {rest : List CacheElement}
    (hm : eraseGet pk l = some (e, rest))
    (hnodup : (l.map (fun x => x.primaryKey)).Nodup) :
    ∀ x ∈ rest, x.primaryKey ≠ pk := by
  obtain ⟨hkey, a, b, hl, hrest, ha⟩ := eraseGet_some_spec hm
  have hb : ∀ x ∈ b, x.primaryKey ≠ pk := by
    intro x hx hc
    rw [hl, List.map_append, List.map_cons] at hnodup
    have h2 := List.Nodup.of_append_right hnodup
    rw [List.nodup_cons] at h2
    exact h2.1 (hkey ▸ (hc ▸ List.mem_map.mpr ⟨x, hx, rfl⟩))
  intro x hx
  rw [hrest] at hx
  rcases List.mem_append.mp hx with h1 | h2
  · exact ha x h1
  · exact hb x h2

theorem eraseGet_rest_sublist {pk : Int} {l : List CacheElement}
    {e : CacheElement} {rest : List CacheElement}
    (hm : eraseGet pk l = some (e, rest)) : rest.Sublist l := by
  obtain ⟨_, a, b, hl, hrest, _⟩ := eraseGet_some_spec hm
  rw [hl, hrest]
  exact List.Sublist.append (List.Sublist.refl a) (List.sublist_cons_self e b)

theorem findElem_none_of_eraseGet_none {pk : Int} {l : List CacheElement}
    (hm : eraseGet pk l = none) : findElem pk l = none :=
  findElem_eq_none.mpr (eraseGet_eq_none.mp hm)

/-- The configuration fields survive the locked update section unchanged. -/
theorem updateLocked_config (s : LRUCacheSizeOrder) (alive : Bool)
    (key size now : Int) :
    (s.updateLocked alive key size now).nHardLimitInBytes = s.nHardLimitInBytes ∧
    (s.updateLocked alive key size now).nSoftLimitInBytes = s.nSoftLimitInBytes ∧
    (s.updateLocked alive key size now).nThresholdInSec = s.nThresholdInSec := by
  cases hm : eraseGet key s.listOfElements with
  | none =>
    rw [updateLocked_eq_none s alive key size now hm]
    exact ⟨rfl, rfl, rfl⟩
  | some pr =>
    obtain ⟨e0, rest⟩ := pr
    rw [updateLocked_eq_some s alive key size now e0 rest hm]
    exact ⟨rfl, rfl, rfl⟩

/-- A size-order cache tracking key 1 with size 5, marked for size-wise
cleanup and present in the size-ordered index. -/
def c3updstate : LRUCacheSizeOrder :=
  { listOfElements := [{ primaryKey := 1, size := 5, lastAccess := 0, mark := true, alive := true }]
    mapOfElementsOrderSize := [(5, 1)]
    nTotalSizeOfCache := 5
    nSoftLimitInBytes := 3
    nHardLimitInBytes := 10
    nThresholdInSec := 4
    nCleanScheduleInSec := 0 }

/-- C3 amended: for a requested size that passes the hard-limit admission
guard, the locked section of `updateElement` replaces any prior
registration of the key: the resulting recency list ends with a fresh
registration of the key (new size converted to `int64_t`, access time
refreshed, `pending_size_eviction` marker clear), the other elements keep
their relative order and none of them carries the key, the total is
adjusted by the new size minus the replaced one, and no size-ordered index
entry for the key survives; when the result stays within the hard limit,
`updateElement` returns exactly this state and invokes no cleanup. -/
theorem c3_update_replaces_within_hard_limit (s : LRUCacheSizeOrder)
    (alive : Bool) (key size now : Int)
    (hguard : toUInt64 size ≤ toUInt64 s.nHardLimitInBytes)
    (hnodup : (s.listOfElements.map (fun e => e.primaryKey)).Nodup)
    (hmnodup : s.mapOfElementsOrderSize.Nodup)
    (hcons : ∀ p ∈ s.mapOfElementsOrderSize,
      ∃ e, findElem p.2 s.listOfElements = some e ∧ e.size = p.1) :
    (∃ e2 rest, (s.updateLocked alive key size now).listOfElements = rest ++ [e2] ∧
      e2.primaryKey = key ∧ e2.size = toInt64 size ∧ e2.lastAccess = now ∧
      e2.mark = false ∧ (∀ x ∈ rest, x.primaryKey ≠ key) ∧
      rest.Sublist s.listOfElements) ∧
    (s.updateLocked alive key size now).nTotalSizeOfCache =
      s.nTotalSizeOfCache -
        (match findElem key s.listOfElements with
          | some e => e.size
          | none => 0) + toInt64 size ∧
    (∀ p ∈ (s.updateLocked alive key size now).mapOfElementsOrderSize, p.2 ≠ key) ∧
    ((s.updateLocked alive key size now).nTotalSizeOfCache ≤ s.nHardLimitInBytes →
      s.updateElement alive key size now = (s.updateLocked alive key size now, [])) := by
  have hmain : (∃ e2 rest,
      (s.updateLocked alive key size now).listOfElements = rest ++ [e2] ∧
      e2.primaryKey = key ∧ e2.size = toInt64 size ∧ e2.lastAccess = now ∧
      e2.mark = false ∧ (∀ x ∈ rest, x.primaryKey ≠ key) ∧
      rest.Sublist s.listOfElements) ∧
      (s.updateLocked alive key size now).nTotalSizeOfCache =
        s.nTotalSizeOfCache -
          (match findElem key s.listOfElements with
            | some e => e.size
            | none => 0) + toInt64 size ∧
      (∀ p ∈ (s.updateLocked alive key size now).mapOfElementsOrderSize,
        p.2 ≠ key) := by
    cases hm : eraseGet key s.listOfElements with
    | none =>
      rw [updateLocked_eq_none s alive key size now hm,
        findElem_none_of_eraseGet_none hm]
      refine ⟨⟨⟨key, toInt64 size, now, false, alive⟩, s.listOfElements,
          rfl, rfl, rfl, rfl, rfl, eraseGet_eq_none.mp hm, List.Sublist.refl _⟩,
        ?_, ?_⟩
      · show s.nTotalSizeOfCache + toInt64 size =
          s.nTotalSizeOfCache - 0 + toInt64 size
        omega
      intro p hp hpkey
      have hp2 : p ∈ s.mapOfElementsOrderSize :=
        ((mem_eraseSizePK hmnodup p (0, key)).mp hp).1
      obtain ⟨e, he, _⟩ := hcons p hp2
      rw [hpkey, findElem_none_of_eraseGet_none hm] at he
      cases he
    | some pr =>
      obtain ⟨e0, rest⟩ := pr
      have hkey : e0.primaryKey = key := (eraseGet_some_spec hm).1
      rw [updateLocked_eq_some s alive key size now e0 rest hm,
        findElem_of_eraseGet hm]
      refine ⟨⟨⟨e0.primaryKey, toInt64 size, now, false, e0.alive⟩, rest,
          rfl, hkey, rfl, rfl, rfl, eraseGet_rest_keys hm hnodup,
          eraseGet_rest_sublist hm⟩,
        rfl, ?_⟩
      intro p hp hpkey
      have hp2 := (mem_eraseSizePK hmnodup p (e0.size, e0.primaryKey)).mp hp
      obtain ⟨e, he, hesize⟩ := hcons p hp2.1
      rw [hpkey, findElem_of_eraseGet hm] at he
      injection he with he
      apply hp2.2
      have hp12 : p = (p.1, p.2) := rfl
      rw [hp12, ← hesize, hpkey, ← he, hkey]
  refine ⟨hmain.1, hmain.2.1, hmain.2.2, ?_⟩
  intro hle
  unfold LRUCacheSizeOrder.updateElement
  rw [if_pos hguard, if_neg]
  rw [(updateLocked_config s alive key size now).1]
  omega

/-- Witness for C3: refreshing key 1 (old size 5, marked, with a stale
index entry) to size 7 on a hard-limit-10 cache. -/
theorem c3_update_replaces_within_hard_limit_witness :
    (c3updstate.updateLocked true 1 7 9).nTotalSizeOfCache = c3updstate.nTotalSizeOfCache - 5 + 7 ∧
    (5, 1) ∉ (c3updstate.updateLocked true 1 7 9).mapOfElementsOrderSize := by
  have h := c3_update_replaces_within_hard_limit c3updstate true 1 7 9
    (by decide) (by decide) (by decide)
    (fun p hp => by
      have hp2 : p = (5, 1) := by
        rcases List.mem_cons.mp hp with h1 | h2
        · exact h1
        · cases h2
      rw [hp2]
      exact ⟨⟨1, 5, 0, true, true⟩, by decide, by decide⟩)
  refine ⟨?_, ?_⟩
  · rw [h.2.1]
    decide
  · intro hmem
    exact h.2.2.1 (5, 1) hmem rfl

/-! ## The protected key during hard-limit eviction (C4) -/

theorem eraseGet_sizeSum {pk : Int} {l : List CacheElement}
    {e : CacheElement} {rest : List CacheElement}
    (hm : eraseGet pk l = some (e, rest)) :
    sizeSum l = e.size + sizeSum rest := by
  obtain ⟨_, a, b, hl, hrest, _⟩ := eraseGet_some_spec hm
  rw [hl, hrest, sizeSum_append, sizeSum_cons, sizeSum_append]
  omega

/-- The heart of the protected-key analysis: run the recency eviction loop
on a list ending in the (unmarked) element of the protected key `k`, with
the running total equal to the sum of the listed sizes and all sizes
non-negative.  Then (i) `k` is never queued for owner cleanup, (ii) if the
protected element's own size exceeds the soft limit every element including
the protected one is popped (it ends as sole occupant still above the soft
limit and is purged anyway), and (iii) otherwise the protected element
survives at the back of the list. -/
theorem purgeLoop_protected_last (soft k : Int) (kel : CacheElement)
    (hk : kel.primaryKey = k) :
    ∀ (pre : List CacheElement) (acc : List Int) (total : Int),
    total = sizeSum (pre ++ [kel]) →
    (∀ e ∈ pre, 0 ≤ e.size) →
    (∀ e ∈ pre, e.primaryKey ≠ k) →
    (∀ x ∈ (purgeLoop soft (some k) (pre ++ [kel]) total acc).2.2, x ∈ acc ∨ x ≠ k) ∧
    (kel.size > soft → (purgeLoop soft (some k) (pre ++ [kel]) total acc).1 = []) ∧
    (kel.size ≤ soft → ∃ rem,
      (purgeLoop soft (some k) (pre ++ [kel]) total acc).1 = rem ++ [kel]) := by
  intro pre
  induction pre with
  | nil =>
    intro acc total htot _ _
    rw [List.nil_append] at htot ⊢
    have htot2 : total = kel.size := by
      rw [htot, sizeSum_cons, sizeSum_nil]
      omega
    rw [purgeLoop_cons]
    by_cases hgt : total > soft
    · rw [if_pos hgt, if_pos (by rw [hk])]
      exact ⟨fun x hx => Or.inl hx, fun _ => rfl,
        fun hle => absurd hgt (by omega)⟩
    · rw [if_neg hgt]
      exact ⟨fun x hx => Or.inl hx, fun hgt2 => absurd hgt2 (by omega),
        fun _ => ⟨[], rfl⟩⟩
  | cons e pre2 ih =>
    intro acc total htot hsz hkeys
    have he0 : 0 ≤ e.size := hsz e (by simp)
    have hke : e.primaryKey ≠ k := hkeys e (by simp)
    have hsz2 : ∀ x ∈ pre2, 0 ≤ x.size := fun x hx => hsz x (by simp [hx])
    have hkeys2 : ∀ x ∈ pre2, x.primaryKey ≠ k := fun x hx => hkeys x (by simp [hx])
    have htot2 : total = e.size + sizeSum (pre2 ++ [kel]) := by
      rw [htot, List.cons_append, sizeSum_cons]
    have hgekel : sizeSum (pre2 ++ [kel]) ≥ kel.size := by
      rw [sizeSum_append, sizeSum_cons, sizeSum_nil]
      have := sizeSum_nonneg hsz2
      omega
    rw [List.cons_append, purgeLoop_cons]
    by_cases hgt : total > soft
    · rw [if_pos hgt, if_neg (by
        intro hc
        injection hc with hc
        exact hke hc.symm)]
      have hihyp := ih (acc ++ if e.alive then [e.primaryKey] else [])
        (total - e.size) (by omega) hsz2 hkeys2
      refine ⟨?_, hihyp.2.1, hihyp.2.2⟩
      intro x hx
      rcases hihyp.1 x hx with h1 | h2
      · rcases List.mem_append.mp h1 with h3 | h4
        · exact Or.inl h3
        · cases ha : e.alive with
          | true =>
            rw [ha] at h4
            simp at h4
            rw [h4]
            exact Or.inr hke
          | false =>
            rw [ha] at h4
            cases h4
      · exact Or.inr h2
    · rw [if_neg hgt]
      refine ⟨fun x hx => Or.inl hx, ?_, ?_⟩
      · intro hgt2
        exact absurd hgt (by omega)
      · intro _
        exact ⟨e :: pre2, by rw [List.cons_append]⟩

/-- Every key queued by phase 1 of the eviction sweep is the key component
of some size-ordered index entry (or was already in the accumulator). -/
theorem drainSizeMap_queue_mem (l : List CacheElement) :
    ∀ (entries : List (Int × Int)) (total : Int) (acc : List Int),
    ∀ x ∈ (drainSizeMap l entries total acc).2,
      x ∈ acc ∨ ∃ p ∈ entries, x = p.2 := by
  intro entries
  induction entries with
  | nil => intro total acc x hx; exact Or.inl hx
  | cons p rest ih =>
    intro total acc x hx
    unfold drainSizeMap at hx
    cases hf : findElem p.2 l with
    | some e =>
      rw [hf] at hx
      rcases ih (total - e.size) (acc ++ if e.alive then [p.2] else []) x hx
        with h1 | ⟨q, hq, hxq⟩
      · rcases List.mem_append.mp h1 with h2 | h3
        · exact Or.inl h2
        · cases ha : e.alive with
          | true =>
            rw [ha] at h3
            simp at h3
            exact Or.inr ⟨p, by simp, h3⟩
          | false =>
            rw [ha] at h3
            cases h3
      · exact Or.inr ⟨q, by simp [hq], hxq⟩
    | none =>
      rw [hf] at hx
      rcases ih total acc x hx with h1 | ⟨q, hq, hxq⟩
      · exact Or.inl h1
      · exact Or.inr ⟨q, by simp [hq], hxq⟩

/-- The protected-key analysis of phase 2 of the hybrid eviction sweep, on
a fully general state: the list ends in the element of the protected key
`k` (marked or not, the running total arbitrary — no coherence or sign
assumptions).  Then (i) `k` is never queued for owner cleanup, (ii) the
walk empties the list exactly when the final running total still exceeds
the soft limit (the protected element is popped last, as sole occupant,
without its size being subtracted), and (iii) the protected key stays
tracked exactly when the final total came down to the soft limit. -/
theorem purgeLoopSO_protected_last (soft k : Int) (kel : CacheElement)
    (hk : kel.primaryKey = k) :
    ∀ (pre : List CacheElement) (acc : List Int) (total : Int),
    (∀ e ∈ pre, e.primaryKey ≠ k) →
    (∀ x ∈ (purgeLoopSO soft (some k) (pre ++ [kel]) total acc).2.2,
      x ∈ acc ∨ x ≠ k) ∧
    ((purgeLoopSO soft (some k) (pre ++ [kel]) total acc).1 = [] ↔
      (purgeLoopSO soft (some k) (pre ++ [kel]) total acc).2.1 > soft) ∧
    ((∃ e ∈ (purgeLoopSO soft (some k) (pre ++ [kel]) total acc).1,
      e.primaryKey = k) ↔
      (purgeLoopSO soft (some k) (pre ++ [kel]) total acc).2.1 ≤ soft) := by
  intro pre
  induction pre with
  | nil =>
    intro acc total _
    rw [List.nil_append, purgeLoopSO_cons]
    by_cases hgt : total > soft
    · rw [if_pos hgt]
      by_cases hmk : kel.mark
      · rw [if_pos hmk]
        refine ⟨fun x hx => Or.inl hx, iff_of_true rfl hgt, iff_of_false ?_ ?_⟩
        · rintro ⟨e, he, _⟩
          cases he
        · exact not_le.mpr hgt
      · rw [if_neg hmk, if_pos (by rw [hk])]
        refine ⟨fun x hx => Or.inl hx, iff_of_true rfl hgt, iff_of_false ?_ ?_⟩
        · rintro ⟨e, he, _⟩
          cases he
        · exact not_le.mpr hgt
    · rw [if_neg hgt]
      refine ⟨fun x hx => Or.inl hx,
        iff_of_false (List.cons_ne_nil kel []) hgt,
        iff_of_true ⟨kel, List.mem_cons_self kel [], hk⟩ (le_of_not_lt hgt)⟩
  | cons e pre2 ih =>
    intro acc total hkeys
    have hke : e.primaryKey ≠ k := hkeys e (by simp)
    have hkeys2 : ∀ x ∈ pre2, x.primaryKey ≠ k :=
      fun x hx => hkeys x (by simp [hx])
    rw [List.cons_append, purgeLoopSO_cons]
    by_cases hgt : total > soft
    · rw [if_pos hgt]
      by_cases hmk : e.mark
      · rw [if_pos hmk]
        exact ih acc total hkeys2
      · rw [if_neg hmk, if_neg (by
          intro hc
          injection hc with hc
          exact hke hc.symm)]
        have hrec := ih (acc ++ if e.alive then [e.primaryKey] else [])
          (total - e.size) hkeys2
        refine ⟨?_, hrec.2.1, hrec.2.2⟩
        intro x hx
        rcases hrec.1 x hx with h1 | h2
        · rcases List.mem_append.mp h1 with h3 | h4
          · exact Or.inl h3
          · cases ha : e.alive with
            | true =>
              rw [ha] at h4
              simp at h4
              rw [h4]
              exact Or.inr hke
            | false =>
              rw [ha] at h4
              cases h4
        · exact Or.inr h2
    · rw [if_neg hgt]
      refine ⟨fun x hx => Or.inl hx,
        iff_of_false (List.cons_ne_nil e (pre2 ++ [kel])) hgt,
        iff_of_true ⟨kel, by simp, hk⟩ (le_of_not_lt hgt)⟩

/-- The full hybrid eviction sweep run with a protected key whose element
sits at the newest end of the recency list, on an arbitrary state whose
size-ordered index holds no entry for that key: the protected key is never
handed to owner cleanup (neither by the phase-1 drain, whose queue consists
of index-entry keys, nor by the recency walk), and it survives the sweep
exactly when the sweep brought `total_size` down to the soft limit —
otherwise everything was purged and it fell as the sole last occupant. -/
theorem cleanup_protected_last_general (s1 : LRUCacheSizeOrder) (k : Int)
    (kel : CacheElement) (pre : List CacheElement)
    (hlist : s1.listOfElements = pre ++ [kel])
    (hk : kel.primaryKey = k)
    (hkeys : ∀ e ∈ pre, e.primaryKey ≠ k)
    (hmkeys : ∀ p ∈ s1.mapOfElementsOrderSize, p.2 ≠ k) :
    (k ∉ (s1.cleanup (some k)).2) ∧
    ((s1.cleanup (some k)).1.listOfElements = [] ↔
      (s1.cleanup (some k)).1.nTotalSizeOfCache > s1.nSoftLimitInBytes) ∧
    ((∃ e ∈ (s1.cleanup (some k)).1.listOfElements, e.primaryKey = k) ↔
      (s1.cleanup (some k)).1.nTotalSizeOfCache ≤ s1.nSoftLimitInBytes) := by
  have hstate : (s1.cleanup (some k)).1.listOfElements =
      (purgeLoopSO s1.nSoftLimitInBytes (some k) (pre ++ [kel])
        (drainSizeMap (pre ++ [kel]) s1.mapOfElementsOrderSize
          s1.nTotalSizeOfCache []).1
        (drainSizeMap (pre ++ [kel]) s1.mapOfElementsOrderSize
          s1.nTotalSizeOfCache []).2).1 := by
    unfold LRUCacheSizeOrder.cleanup
    rw [hlist]
  have htotal : (s1.cleanup (some k)).1.nTotalSizeOfCache =
      (purgeLoopSO s1.nSoftLimitInBytes (some k) (pre ++ [kel])
        (drainSizeMap (pre ++ [kel]) s1.mapOfElementsOrderSize
          s1.nTotalSizeOfCache []).1
        (drainSizeMap (pre ++ [kel]) s1.mapOfElementsOrderSize
          s1.nTotalSizeOfCache []).2).2.1 := by
    unfold LRUCacheSizeOrder.cleanup
    rw [hlist]
  have hqueue : (s1.cleanup (some k)).2 =
      (purgeLoopSO s1.nSoftLimitInBytes (some k) (pre ++ [kel])
        (drainSizeMap (pre ++ [kel]) s1.mapOfElementsOrderSize
          s1.nTotalSizeOfCache []).1
        (drainSizeMap (pre ++ [kel]) s1.mapOfElementsOrderSize
          s1.nTotalSizeOfCache []).2).2.2 := by
    unfold LRUCacheSizeOrder.cleanup
    rw [hlist]
  have hacc : ∀ x ∈ (drainSizeMap (pre ++ [kel]) s1.mapOfElementsOrderSize
      s1.nTotalSizeOfCache []).2, x ≠ k := by
    intro x hx
    rcases drainSizeMap_queue_mem (pre ++ [kel]) s1.mapOfElementsOrderSize
      s1.nTotalSizeOfCache [] x hx with h1 | ⟨p, hp, hxp⟩
    · cases h1
    · rw [hxp]
      exact hmkeys p hp
  obtain ⟨h1, h2, h3⟩ := purgeLoopSO_protected_last s1.nSoftLimitInBytes k kel hk
    pre
    (drainSizeMap (pre ++ [kel]) s1.mapOfElementsOrderSize
      s1.nTotalSizeOfCache []).2
    (drainSizeMap (pre ++ [kel]) s1.mapOfElementsOrderSize
      s1.nTotalSizeOfCache []).1
    hkeys
  refine ⟨?_, ?_, ?_⟩
  · intro hkin
    rw [hqueue] at hkin
    rcases h1 k hkin with h | h
    · exact hacc k h rfl
    · exact h rfl
  · rw [hstate, htotal]
    exact h2
  · rw [hstate, htotal]
    exact h3

theorem updateLocked_map_empty (s : LRUCacheSizeOrder) (alive : Bool)
    (key size now : Int) (hmap : s.mapOfElementsOrderSize = []) :
    (s.updateLocked alive key size now).mapOfElementsOrderSize = [] := by
  cases hm : eraseGet key s.listOfElements with
  | none =>
    rw [updateLocked_eq_none s alive key size now hm]
    show eraseSizePK (0, key) s.mapOfElementsOrderSize = []
    rw [hmap]
    rfl
  | some pr =>
    obtain ⟨e0, rest⟩ := pr
    rw [updateLocked_eq_some s alive key size now e0 rest hm]
    show eraseSizePK (e0.size, e0.primaryKey) s.mapOfElementsOrderSize = []
    rw [hmap]
    rfl

theorem updateLocked_unmarked (s : LRUCacheSizeOrder) (alive : Bool)
    (key size now : Int) (hunmk : ∀ e ∈ s.listOfElements, e.mark = false) :
    ∀ e ∈ (s.updateLocked alive key size now).listOfElements, e.mark = false := by
  intro e he
  cases hm : eraseGet key s.listOfElements with
  | none =>
    rw [updateLocked_eq_none s alive key size now hm] at he
    rcases List.mem_append.mp he with h1 | h2
    · exact hunmk e h1
    · simp at h2
      rw [h2]
  | some pr =>
    obtain ⟨e0, rest⟩ := pr
    rw [updateLocked_eq_some s alive key size now e0 rest hm] at he
    rcases List.mem_append.mp he with h1 | h2
    · exact hunmk e (eraseGet_rest_subset hm e h1)
    · simp at h2
      rw [h2]

/-- After the locked update section, no size-ordered index entry carries
the updated key: `removeSizeWiseMarker` erased the (unique, by the index
consistency invariant) stale entry. -/
theorem updateLocked_no_stale_entry (s : LRUCacheSizeOrder) (alive : Bool)
    (key size now : Int)
    (hmnodup : s.mapOfElementsOrderSize.Nodup)
    (hcons : ∀ p ∈ s.mapOfElementsOrderSize,
      ∃ e, findElem p.2 s.listOfElements = some e ∧ e.size = p.1) :
    ∀ p ∈ (s.updateLocked alive key size now).mapOfElementsOrderSize,
      p.2 ≠ key := by
  intro p hp hpkey
  cases hm : eraseGet key s.listOfElements with
  | none =>
    rw [updateLocked_eq_none s alive key size now hm] at hp
    have hp2 : p ∈ s.mapOfElementsOrderSize :=
      ((mem_eraseSizePK hmnodup p (0, key)).mp hp).1
    obtain ⟨e, he, _⟩ := hcons p hp2
    rw [hpkey, findElem_none_of_eraseGet_none hm] at he
    cases he
  | some pr =>
    obtain ⟨e0, rest⟩ := pr
    have hkey : e0.primaryKey = key := (eraseGet_some_spec hm).1
    rw [updateLocked_eq_some s alive key size now e0 rest hm] at hp
    have hp2 := (mem_eraseSizePK hmnodup p (e0.size, e0.primaryKey)).mp hp
    obtain ⟨e, he, hesize⟩ := hcons p hp2.1
    rw [hpkey, findElem_of_eraseGet hm] at he
    injection he with he
    apply hp2.2
    have hp12 : p = (p.1, p.2) := rfl
    rw [hp12, ← hesize, hpkey, ← he, hkey]

theorem LRUCache.updateElement_eq_none (t : LRUCache) (alive : Bool)
    (key size now : Int) (hm : eraseGet key t.mListOfElements = none) :
    t.updateElement alive key size now =
      (if t.mTotalSize + size > t.mMaxSizeHard then
        ({ t with
              mListOfElements := t.mListOfElements ++
                [⟨key, size, now, false, alive⟩],
              mTotalSize := t.mTotalSize + size } : LRUCache).cleanup (some key)
      else
        ({ t with
              mListOfElements := t.mListOfElements ++
                [⟨key, size, now, false, alive⟩],
              mTotalSize := t.mTotalSize + size }, [])) := by
  unfold LRUCache.updateElement
  rw [hm]

theorem LRUCache.updateElement_eq_some (t : LRUCache) (alive : Bool)
    (key size now : Int) (e0 : CacheElement) (rest : List CacheElement)
    (hm : eraseGet key t.mListOfElements = some (e0, rest)) :
    t.updateElement alive key size now =
      (if t.mTotalSize - e0.size + size > t.mMaxSizeHard then
        ({ t with
              mListOfElements := rest ++ [{ e0 with size := size, lastAccess := now }],
              mTotalSize := t.mTotalSize - e0.size + size } : LRUCache).cleanup (some key)
      else
        ({ t with
              mListOfElements := rest ++ [{ e0 with size := size, lastAccess := now }],
              mTotalSize := t.mTotalSize - e0.size + size }, [])) := by
  unfold LRUCache.updateElement
  rw [hm]

/-- C4: when an update pushes the total above the hard limit, eviction runs
synchronously with the just-updated key protected from purge.  First part
(the hybrid cache, on an arbitrary state — marked elements and a populated
size-ordered index included — with unique keys, the index consistency
invariant, the faithful unsigned admission guard, and the hard-limit
trigger): the protected key is never handed to owner cleanup; the sweep
ends with an empty recency list exactly when the final `total_size` counter
still exceeds the soft limit — the protected element, last in recency
order, is popped only then, as the sole remaining occupant whose weight the
counter still carries (its pop subtracts nothing); equivalently, the
protected key stays tracked exactly when the sweep brought the counter down
to the soft limit.  Second part (the plain cache, which admits arbitrarily
large sizes, on a coherent state with non-negative sizes): an element whose
size alone exceeds the hard limit is still evictable — its own insert
purges the whole cache including itself. -/
theorem c4_protected_key_eviction :
    (∀ (s : LRUCacheSizeOrder) (alive : Bool) (key size now : Int),
      toUInt64 size ≤ toUInt64 s.nHardLimitInBytes →
      (s.listOfElements.map (fun e => e.primaryKey)).Nodup →
      s.mapOfElementsOrderSize.Nodup →
      (∀ p ∈ s.mapOfElementsOrderSize,
        ∃ e, findElem p.2 s.listOfElements = some e ∧ e.size = p.1) →
      (s.updateLocked alive key size now).nTotalSizeOfCache > s.nHardLimitInBytes →
      (key ∉ (s.updateElement alive key size now).2 ∧
        ((s.updateElement alive key size now).1.listOfElements = [] ↔
          (s.updateElement alive key size now).1.nTotalSizeOfCache >
            s.nSoftLimitInBytes) ∧
        ((∃ e ∈ (s.updateElement alive key size now).1.listOfElements,
          e.primaryKey = key) ↔
          (s.updateElement alive key size now).1.nTotalSizeOfCache ≤
            s.nSoftLimitInBytes))) ∧
    (∀ (t : LRUCache) (alive : Bool) (key size now : Int),
      (∀ e ∈ t.mListOfElements, 0 ≤ e.size) →
      (t.mListOfElements.map (fun e => e.primaryKey)).Nodup →
      t.mTotalSize = sizeSum t.mListOfElements →
      t.mMaxSizeSoft ≤ t.mMaxSizeHard →
      t.mMaxSizeHard < size →
      (t.updateElement alive key size now).1.mListOfElements = []) := by
  constructor
  · intro s alive key size now hguard hnodup hmnodup hcons htrig
    have hupd : s.updateElement alive key size now =
        (s.updateLocked alive key size now).cleanup (some key) := by
      unfold LRUCacheSizeOrder.updateElement
      rw [if_pos hguard, if_pos (by
        rw [(updateLocked_config s alive key size now).1]
        exact htrig)]
    have hmkeys := updateLocked_no_stale_entry s alive key size now hmnodup hcons
    cases hm : eraseGet key s.listOfElements with
    | none =>
      have happly := cleanup_protected_last_general
        (s.updateLocked alive key size now) key
        ⟨key, toInt64 size, now, false, alive⟩ s.listOfElements
        (by rw [updateLocked_eq_none s alive key size now hm])
        rfl (eraseGet_eq_none.mp hm) hmkeys
      rw [(updateLocked_config s alive key size now).2.1] at happly
      refine ⟨?_, ?_, ?_⟩
      · rw [hupd]
        exact happly.1
      · rw [hupd]
        exact happly.2.1
      · rw [hupd]
        exact happly.2.2
    | some pr =>
      obtain ⟨e0, rest⟩ := pr
      have hkey0 : e0.primaryKey = key := (eraseGet_some_spec hm).1
      have happly := cleanup_protected_last_general
        (s.updateLocked alive key size now) key
        ⟨e0.primaryKey, toInt64 size, now, false, e0.alive⟩ rest
        (by rw [updateLocked_eq_some s alive key size now e0 rest hm])
        hkey0 (eraseGet_rest_keys hm hnodup) hmkeys
      rw [(updateLocked_config s alive key size now).2.1] at happly
      refine ⟨?_, ?_, ?_⟩
      · rw [hupd]
        exact happly.1
      · rw [hupd]
        exact happly.2.1
      · rw [hupd]
        exact happly.2.2
  · intro t alive key size now hsz hnodup hcoh hsh hhard
    cases hm : eraseGet key t.mListOfElements with
    | none =>
      have htrig : t.mTotalSize + size > t.mMaxSizeHard := by
        have hs0 := sizeSum_nonneg hsz
        omega
      rw [LRUCache.updateElement_eq_none t alive key size now hm, if_pos htrig]
      have h := purgeLoop_protected_last t.mMaxSizeSoft key
        ⟨key, size, now, false, alive⟩ rfl t.mListOfElements []
        (t.mTotalSize + size)
        (by
          rw [sizeSum_append, sizeSum_cons, sizeSum_nil, hcoh,
            show (⟨key, size, now, false, alive⟩ : CacheElement).size = size from rfl]
          omega)
        hsz (eraseGet_eq_none.mp hm)
      exact h.2.1 (by show size > t.mMaxSizeSoft; omega)
    | some pr =>
      obtain ⟨e0, rest⟩ := pr
      have hkey0 : e0.primaryKey = key := (eraseGet_some_spec hm).1
      have he00 : 0 ≤ e0.size := by
        apply hsz
        obtain ⟨_, a, b, hl, _, _⟩ := eraseGet_some_spec hm
        rw [hl]
        exact List.mem_append.mpr (Or.inr (by simp))
      have htrig : t.mTotalSize - e0.size + size > t.mMaxSizeHard := by
        have hs0 := sizeSum_nonneg
          (fun x hx => hsz x (eraseGet_rest_subset hm x hx))
        have hsum := eraseGet_sizeSum hm
        omega
      rw [LRUCache.updateElement_eq_some t alive key size now e0 rest hm,
        if_pos htrig]
      have h := purgeLoop_protected_last t.mMaxSizeSoft key
        { e0 with size := size, lastAccess := now } hkey0 rest []
        (t.mTotalSize - e0.size + size)
        (by
          show t.mTotalSize - e0.size + size =
            sizeSum (rest ++ [{ e0 with size := size, lastAccess := now }])
          rw [sizeSum_append, sizeSum_cons, sizeSum_nil, hcoh, eraseGet_sizeSum hm,
            show ({ e0 with size := size, lastAccess := now } : CacheElement).size = size
              from rfl]
          omega)
        (fun x hx => hsz x (eraseGet_rest_subset hm x hx))
        (eraseGet_rest_keys hm hnodup)
      exact h.2.1 (by show size > t.mMaxSizeSoft; omega)

/-- A threshold-mode size-order cache (soft 20, hard 40) tracking a marked
stale element (key 3, size 12, indexed) and an unmarked element (key 1,
size 18), about to receive a size-30 element under key 2. -/
def c4state : LRUCacheSizeOrder :=
  { listOfElements :=
      [{ primaryKey := 3, size := 12, lastAccess := 0, mark := true, alive := true },
       { primaryKey := 1, size := 18, lastAccess := 4, mark := false, alive := true }]
    mapOfElementsOrderSize := [(12, 3)]
    nTotalSizeOfCache := 30
    nSoftLimitInBytes := 20
    nHardLimitInBytes := 40
    nThresholdInSec := 10
    nCleanScheduleInSec := 0 }

/-- An empty plain `LRUCache` with soft 20 and hard 40. -/
def c4plain : LRUCache :=
  { mListOfElements := []
    mTotalSize := 0
    mMaxSizeSoft := 20
    mMaxSizeHard := 40 }

/-- Witness for C4: inserting key 2 (size 30) into the threshold-mode
`c4state` pushes the total to 60 > 40; the triggered eviction drains the
marked entry, never cleans key 2, and ends with the counter at 30 > soft 20
— so the protected element itself fell as the sole last occupant and the
list is empty.  On the plain cache, inserting a single element of size
50 > hard 40 purges it by its own insert. -/
theorem c4_protected_key_eviction_witness :
    (2 : Int) ∉ (c4state.updateElement true 2 30 6).2 ∧
    (c4state.updateElement true 2 30 6).1.listOfElements = [] ∧
    (c4plain.updateElement true 1 50 0).1.mListOfElements = [] := by
  have h1 := c4_protected_key_eviction.1 c4state true 2 30 6
    (by decide) (by decide) (by decide)
    (fun p hp => by
      have hp2 : p = (12, 3) := by
        rcases List.mem_cons.mp hp with ha | hb
        · exact ha
        · cases hb
      rw [hp2]
      exact ⟨⟨3, 12, 0, true, true⟩, by decide, by decide⟩)
    (by decide)
  have h2 := c4_protected_key_eviction.2 c4plain true 1 50 0
    (by decide) (by decide) (by decide) (by decide) (by decide)
  exact ⟨h1.1, h1.2.1.mpr (by decide), h2⟩

end LRU
